import Mathlib

/-!
Verification development for the duplicate-file cleaner
(`duplicate_cleaner.py`).

The Python source is shallowly embedded: every filesystem interaction
(directory listing, `stat`, reading file bytes, `os.remove`,
`shutil.move`, `Path.resolve`, glob matching, SHA-256) is represented by
an explicit oracle parameter, and each component's control flow is
translated line by line into a pure Lean function over those oracles.
Python floats (timestamps) are modelled as `Int`: the code only ever
compares them and takes `min`, operations on which non-NaN floats agree
with a linear order.  Python's stable `sorted` is modelled by
`List.mergeSort`, which is a stable merge sort with the same
specification.
-/

/-- `FileInfo` dataclass: path, size, ctime, mtime, optional full hash,
optional memoized folder score.  `size` is `Int` (Python `st_size` is an
unbounded int), timestamps are `Int` stand-ins for floats. -/
structure FileInfo where
  path : String
  size : Int
  ctime : Int
  mtime : Int
  hash : Option String := none
  folder_score : Option Int := none
deriving Repr, DecidableEq

namespace DecisionEngine

/-- `get_earliest_time`: `min(file_info.ctime, file_info.mtime)`. -/
def get_earliest_time (file_info : FileInfo) : Int :=
  min file_info.ctime file_info.mtime

/-- The score a `FileInfo` carries once `compute_folder_score` has filled
it.  In Python the field is a plain attribute that is an `int` at every
use site inside `choose_file_to_keep`; the `getD 0` default is dead code
there because the scores are filled first. -/
def scoreD (f : FileInfo) : Int :=
  f.folder_score.getD 0

/-- The Python sort key
`(-f.folder_score, get_earliest_time(f), len(f.path))`. -/
def sortKey (f : FileInfo) : Int × Int × Nat :=
  (-(scoreD f), get_earliest_time f, f.path.length)

/-- Strict lexicographic order on sort keys (Python tuple `<`). -/
def keyLt (a b : Int × Int × Nat) : Prop :=
  a.1 < b.1 ∨ (a.1 = b.1 ∧ (a.2.1 < b.2.1 ∨ (a.2.1 = b.2.1 ∧ a.2.2 < b.2.2)))

/-- Reflexive lexicographic order on sort keys (Python tuple `<=`). -/
def keyLe (a b : Int × Int × Nat) : Prop :=
  keyLt a b ∨ a = b

instance (a b : Int × Int × Nat) : Decidable (keyLt a b) := by
  unfold keyLt; infer_instance

instance (a b : Int × Int × Nat) : Decidable (keyLe a b) := by
  unfold keyLe; infer_instance

/-- Boolean comparison used as the `le` argument of the stable sort. -/
def fileLe (a b : FileInfo) : Bool :=
  decide (keyLe (sortKey a) (sortKey b))

/-- `compute_folder_score` performs directory listing I/O; the oracle
`fsScore : String → Int` gives its result for each path.  `fillScore`
models the lazy memoization
`if file.folder_score is None: file.folder_score = compute_folder_score(file.path)`. -/
def fillScore (fsScore : String → Int) (f : FileInfo) : FileInfo :=
  match f.folder_score with
  | some _ => f
  | none => { f with folder_score := some (fsScore f.path) }

/-- `DecisionEngine.choose_file_to_keep`: single element returned as is;
otherwise scores are filled (in Python by in-place mutation, here by
`map fillScore`), the list is stably sorted ascending by
`(-folder_score, earliest time, path length)` and the first element is
taken.  The empty list gives `none` (Python would raise `IndexError`). -/
def choose_file_to_keep (fsScore : String → Int) (files : List FileInfo) :
    Option FileInfo :=
  if files.length = 1 then files.head?
  else ((files.map (fillScore fsScore)).mergeSort fileLe).head?


end DecisionEngine

namespace Scanner

/-- Observations of a `pathlib.Path` value that `should_skip_path`
needs: its string form `str(path)`, the result of `path.resolve()` as an
absolute path given by its component list (`none` models the
`OSError`/`RuntimeError` branch), and `path.suffix`.  A component list
`r` has `parents` exactly the proper prefixes of `r`. -/
structure SPath where
  str : String
  resolved : Option (List String)
  suffix : String
deriving Repr, DecidableEq

/-- Scanner configuration after `__init__`: `exclude_paths` already
resolved, `skip_exts` already lowercased. -/
structure Config where
  exclude_paths : List (List String)
  exclude_globs : List String
  skip_exts : List String
  min_size : Int
  max_size : Int

/-- `Scanner.__init__`: lowercases the skip-extension list. -/
def mkConfig (exclude_paths : List (List String)) (exclude_globs : List String)
    (skip_extensions : List String) (min_size max_size : Int) : Config :=
  { exclude_paths := exclude_paths
    exclude_globs := exclude_globs
    skip_exts := skip_extensions.map (fun e => e.toLower)
    min_size := min_size
    max_size := max_size }

/-- `excluded in resolved.parents`: `excluded` is a proper prefix of the
resolved component list. -/
def inParents (excluded resolved : List String) : Bool :=
  excluded.isPrefixOf resolved && decide (excluded.length < resolved.length)

/-- `Scanner.should_skip_path`.  If resolution raises, skip.  Otherwise
skip when the resolved path equals or lies under an excluded directory,
or the lowercased path string matches a lowercased glob pattern
(`globMatch` is the oracle for `Path(s).match(p)`), or the lowercased
suffix is in the skip-extension list. -/
def should_skip_path (cfg : Config) (globMatch : String → String → Bool)
    (path : SPath) : Bool :=
  match path.resolved with
  | none => true
  | some resolved =>
    if cfg.exclude_paths.any
        (fun excluded => excluded == resolved || inParents excluded resolved) then
      true
    else
      let path_str := path.str.toLower
      if cfg.exclude_globs.any (fun pattern => globMatch path_str pattern.toLower) then
        true
      else if cfg.skip_exts.contains path.suffix.toLower then
        true
      else false

/-- Oracle for the `pathlib` operations the scanner performs on path
strings, plus glob matching. -/
structure PathOracle where
  resolved : String → Option (List String)
  suffix : String → String
  globMatch : String → String → Bool

def toSPath (po : PathOracle) (s : String) : SPath :=
  ⟨s, po.resolved s, po.suffix s⟩

/-- `root_path / name` (Windows separator). -/
def pathJoin (a b : String) : String := a ++ "\\" ++ b

/-- One entry of the scanned tree.  A file carries the result of
`stat()`: `some (st_size, st_ctime, st_mtime)`, or `none` when `stat`
raises `OSError`/`PermissionError`. -/
inductive FsEntry where
  | file (name : String) (stat : Option (Int × Int × Int))
  | dir (name : String) (children : List FsEntry)

/-- The body of the per-file loop of `Scanner.scan`: skip check, then
`stat` (errors logged and dropped), then the inclusive size-range
check, then the `FileInfo` construction. -/
def processFile (cfg : Config) (po : PathOracle) (cur name : String)
    (stat : Option (Int × Int × Int)) : Option FileInfo :=
  let filepath := pathJoin cur name
  if should_skip_path cfg po.globMatch (toSPath po filepath) then none
  else
    match stat with
    | none => none
    | some (size, ct, mt) =>
      if size < cfg.min_size ∨ size > cfg.max_size then none
      else some ⟨filepath, size, ct, mt, none, none⟩

mutual

/-- `os.walk(root, topdown=True, followlinks=False)` together with the
directory pruning `dirs[:] = [d for d in dirs if not skip(root/d)]` and
the per-file loop, as a recursion over the tree.  Files of the current
directory are produced, pruned subdirectories contribute nothing, kept
subdirectories are walked.  (The OS enumeration order is arbitrary; the
output order here follows the tree order, which no claim depends on.) -/
def walkEntry (cfg : Config) (po : PathOracle) (cur : String) :
    FsEntry → List FileInfo
  | .file name stat => (processFile cfg po cur name stat).toList
  | .dir name children =>
    if should_skip_path cfg po.globMatch (toSPath po (pathJoin cur name)) then []
    else walkList cfg po (pathJoin cur name) children

def walkList (cfg : Config) (po : PathOracle) (cur : String) :
    List FsEntry → List FileInfo
  | [] => []
  | e :: es => walkEntry cfg po cur e ++ walkList cfg po cur es

end

/-- `defaultdict(list)` insertion: append to the existing key group,
else add a new singleton group at the end. -/
def addToGroup {κ α : Type} [DecidableEq κ] (g : List (κ × List α)) (k : κ)
    (v : α) : List (κ × List α) :=
  match g with
  | [] => [(k, [v])]
  | (k0, vs) :: rest =>
    if k0 = k then (k0, vs ++ [v]) :: rest else (k0, vs) :: addToGroup rest k v

/-- `Scanner.scan`: walk the tree under `root` (whose direct entries are
`entries`), group the surviving `FileInfo`s by exact size, and keep only
the groups with more than one member. -/
def scan (cfg : Config) (po : PathOracle) (root : String)
    (entries : List FsEntry) : List (Int × List FileInfo) :=
  let allFiles := walkList cfg po root entries
  let size_groups := allFiles.foldl (fun g f => addToGroup g f.size f) []
  size_groups.filter (fun p => p.2.length > 1)

/-- Spec-side: what the spec promises of one size bucket returned by
`scan`: at least two members; every member's size equals the bucket key,
lies inside `[min_size, max_size]` and the member is not skipped — in
particular its path resolves, it is neither an excluded path nor under
one, it matches no exclusion glob, and its extension is not skipped. -/
def scanBucketOK (cfg : Config) (po : PathOracle) (p : Int × List FileInfo) :
    Prop :=
  2 ≤ p.2.length ∧
  ∀ f ∈ p.2, f.size = p.1 ∧
    cfg.min_size ≤ f.size ∧ f.size ≤ cfg.max_size ∧
    should_skip_path cfg po.globMatch (toSPath po f.path) = false ∧
    (∃ r, po.resolved f.path = some r ∧
      ∀ ex ∈ cfg.exclude_paths, ¬ ex = r ∧ ¬ (ex <+: r ∧ ex.length < r.length)) ∧
    (∀ pat ∈ cfg.exclude_globs, po.globMatch f.path.toLower pat.toLower = false) ∧
    (po.suffix f.path).toLower ∉ cfg.skip_exts

end Scanner

namespace Hasher

/-- 64KB read chunk. -/
def CHUNK_SIZE : Nat := 65536

/-- 1MB constant declared on the class (not used by the claims). -/
def PARTIAL_HASH_SIZE : Nat := 1048576

/-- `f.seek(pos)` followed by `f.read(n)`: the next `n` bytes of the
content starting at offset `pos` (fewer if the file ends sooner). -/
def fileRead (content : List Nat) (pos n : Nat) : List Nat :=
  (content.drop pos).take n

/-- `Hasher.compute_partial_hash`.  File bytes come from the oracle
`readFile` (`none` models every `OSError`/`IOError`/`PermissionError`
raised by `getsize`/`open`/`read`, which the code catches and turns into
`None`).  The SHA-256 digest is abstracted by `hexDigest`, applied to
the concatenation of all bytes fed to `hasher.update` in order: the
first `CHUNK_SIZE` bytes; then, if the size exceeds `2 * CHUNK_SIZE`, a
chunk read after `seek(file_size // 2)`; then, if the size exceeds
`3 * CHUNK_SIZE`, the last chunk read after `seek(-CHUNK_SIZE, 2)`. -/
def compute_partial_hash (hexDigest : List Nat → String)
    (readFile : String → Option (List Nat)) (filepath : String) :
    Option String :=
  match readFile filepath with
  | none => none
  | some content =>
    let file_size := content.length
    let fed := fileRead content 0 CHUNK_SIZE
    let fed := if file_size > 2 * CHUNK_SIZE then
        fed ++ fileRead content (file_size / 2) CHUNK_SIZE else fed
    let fed := if file_size > 3 * CHUNK_SIZE then
        fed ++ fileRead content (file_size - CHUNK_SIZE) CHUNK_SIZE else fed
    some (hexDigest fed)

/-- `Hasher.compute_full_hash`: streams the whole file through the
digest in `CHUNK_SIZE` chunks, which feeds exactly all of the content,
in order, into one digest. -/
def compute_full_hash (hexDigest : List Nat → String)
    (readFile : String → Option (List Nat)) (filepath : String) :
    Option String :=
  match readFile filepath with
  | none => none
  | some content => some (hexDigest content)

/-- Spec-side description of the sampled chunks: the chunk at the start
of the file. -/
def startChunk (content : List Nat) : List Nat :=
  content.take CHUNK_SIZE

/-- Spec-side: the chunk read from the middle of the file. -/
def middleChunk (content : List Nat) : List Nat :=
  (content.drop (content.length / 2)).take CHUNK_SIZE

/-- Spec-side: the chunk read from the end of the file. -/
def endChunk (content : List Nat) : List Nat :=
  (content.drop (content.length - CHUNK_SIZE)).take CHUNK_SIZE

/-- Spec-side: the list of chunks the spec says are fed to the digest,
in order: always the start chunk; the middle chunk exactly when the file
is larger than two chunk sizes; the end chunk exactly when it is larger
than three chunk sizes. -/
def fedChunks (content : List Nat) : List (List Nat) :=
  [startChunk content]
    ++ (if 2 * CHUNK_SIZE < content.length then [middleChunk content] else [])
    ++ (if 3 * CHUNK_SIZE < content.length then [endChunk content] else [])

end Hasher

/-- `DuplicateAction` dataclass.  The wall-clock `timestamp` field
(filled by `datetime.now()` in `__post_init__`) is metadata no claim
touches and is omitted. -/
structure DuplicateAction where
  hash : String
  size : Int
  kept_path : String
  removed_path : String
  reason : String
  kept_ctime : Int
  kept_mtime : Int
  removed_ctime : Int
  removed_mtime : Int
  action : String
  error : Option String := none
deriving Repr, DecidableEq

/-- A filesystem mutation performed by the run: `os.remove` or
`shutil.move`. -/
inductive FsOp where
  | delete (path : String)
  | move (src dest : String)
deriving Repr, DecidableEq

/-- The configuration flags `process_duplicates` reads from `args`. -/
structure RunArgs where
  mode : String
  apply : Bool
  confirm : Bool
deriving Repr, DecidableEq

namespace QuarantineManager

/-- `PureWindowsPath` value: drive (`[]` or a two-character `X:`), a
root flag, and the components after the anchor.  Everything is at the
level of character lists so that the string surgery of
`get_quarantine_path` (`str`, `.replace(":", "_drive")`, re-parsing) is
executable and provable.  UNC (`\\server\share`) drives and `/`
separators are outside the modelled grammar; the tool's inputs are
drive-letter paths. -/
structure WinPath where
  drive : List Char
  root : Bool
  parts : List (List Char)
deriving Repr, DecidableEq

/-- Split a character list on the `\` separator (every separator starts
a new segment; adjacent separators give empty segments, as in string
splitting). -/
def splitSep : List Char → List (List Char)
  | [] => [[]]
  | c :: rest =>
    match splitSep rest with
    | [] => [[]]
    | g :: gs => if c = '\\' then [] :: g :: gs else (c :: g) :: gs

/-- The drive test of `pathlib`'s Windows flavour (Python 3.11):
`part[1:2] == ':' and part[0:1] in drive_letters`, i.e. the second
character is `:` and the first is an ASCII letter.  Strings such as
`\:x` therefore carry no drive and parse as rooted paths. -/
def isDrive (cs : List Char) : Bool :=
  match cs with
  | c0 :: c1 :: _ => c0.isAlpha && c1 == ':'
  | _ => false

/-- Parse a path string (as characters) the way `PureWindowsPath` does
for non-UNC strings: a two-character letter drive when `isDrive` holds,
then an optional root `\`, then the components, with empty and `.`
components dropped. -/
def parseWin (cs : List Char) : WinPath :=
  let drive := if isDrive cs then cs.take 2 else []
  let rest := if isDrive cs then cs.drop 2 else cs
  if rest.head? = some '\\' then
    ⟨drive, true, (splitSep rest.tail).filter (fun p => p ≠ [] ∧ p ≠ ['.'])⟩
  else
    ⟨drive, false, (splitSep rest).filter (fun p => p ≠ [] ∧ p ≠ ['.'])⟩

/-- Join components with `\`. -/
def interSep : List (List Char) → List Char
  | [] => []
  | [p] => p
  | p :: ps => p ++ '\\' :: interSep ps

/-- `str(path)`: drive, root, then the components joined by `\`; the
empty relative path prints as `.`. -/
def strRepr (p : WinPath) : List Char :=
  if p.drive = [] ∧ p.root = false ∧ p.parts = [] then ['.']
  else p.drive ++ (if p.root then ['\\'] else []) ++ interSep p.parts

/-- `str.replace(":", "_drive")`, character by character. -/
def replaceColon (cs : List Char) : List Char :=
  cs.flatMap (fun c => if c = ':' then "_drive".data else [c])

/-- `p.relative_to(base)`: defined when the anchors agree and `base`'s
components are an initial segment of `p`'s; `none` models the
`ValueError`. -/
def relative_to (p base : WinPath) : Option WinPath :=
  if p.drive = base.drive ∧ p.root = base.root ∧ base.parts.isPrefixOf p.parts then
    some ⟨[], false, p.parts.drop base.parts.length⟩
  else none

/-- `q / r`: an argument with a drive replaces everything; a rooted
argument keeps only the drive; otherwise components are appended. -/
def joinpath (q r : WinPath) : WinPath :=
  if r.drive ≠ [] then r
  else if r.root then ⟨q.drive, true, r.parts⟩
  else ⟨q.drive, q.root, q.parts ++ r.parts⟩

/-- `QuarantineManager.get_quarantine_path`: try to express the original
path relative to its drive root and mirror it below the quarantine
directory; on `ValueError` fall back to re-parsing the original string
with each `:` replaced by `_drive`. -/
def get_quarantine_path (quarantine_dir : WinPath) (original_path : List Char) :
    WinPath :=
  let original := parseWin original_path
  let drive := parseWin (original.drive ++ ['\\'])
  match relative_to original drive with
  | some relative => joinpath quarantine_dir relative
  | none => joinpath quarantine_dir (replaceColon (strRepr original) |> parseWin)

/-- State of a `QuarantineManager`: the quarantine root and the ordered
move log. -/
structure QM where
  quarantine_dir : WinPath
  moves : List (String × String)
deriving Repr, DecidableEq

/-- `QuarantineManager.move_to_quarantine`.  The oracle
`mvOk src dest` tells whether the `mkdir` + `shutil.move` sequence for
this pair succeeds; on success the pair is appended to the move log, the
file move is recorded as a mutation, and `True` is returned; any
exception gives `False` with no log append and no file mutation. -/
def move_to_quarantine (mvOk : String → String → Bool) (qm : QM)
    (filepath : String) : Bool × QM × List FsOp :=
  let dest := String.mk (strRepr (get_quarantine_path qm.quarantine_dir filepath.data))
  if mvOk filepath dest then
    (true, { qm with moves := qm.moves ++ [(filepath, dest)] }, [FsOp.move filepath dest])
  else
    (false, qm, [])

/-- Spec-side: `dest` lies strictly inside the directory `qdir` (same
anchor, `qdir`'s components a proper initial segment). -/
def strictlyInside (qdir dest : WinPath) : Prop :=
  dest.drive = qdir.drive ∧ dest.root = qdir.root ∧
  qdir.parts.isPrefixOf dest.parts = true ∧ qdir.parts.length < dest.parts.length

instance (qdir dest : WinPath) : Decidable (strictlyInside qdir dest) := by
  unfold strictlyInside; infer_instance

end QuarantineManager

namespace DuplicateCleaner

/-- One grouping step of `find_duplicates_by_hash`: if the hash given by
`sel` (partial or full) is truthy, append `upd file_info h` to that
hash's group; a `None` hash drops the file from grouping.  `upd` is the
identity for the partial pass and sets the `hash` field for the full
pass. -/
def groupStep (sel : FileInfo → Option String) (upd : FileInfo → String → FileInfo)
    (g : List (String × List FileInfo)) (file_info : FileInfo) :
    List (String × List FileInfo) :=
  match sel file_info with
  | some h => Scanner.addToGroup g h (upd file_info h)
  | none => g

/-- The partial-fingerprint grouping pass: every file of every size
group is partial-hashed (oracle `ph`, `none` = failure) and the
successes are grouped by fingerprint.  (The thread pool's completion
order is abstracted to submission order; no claim depends on it.) -/
def partial_groups (ph : String → Option String)
    (size_groups : List (Int × List FileInfo)) :
    List (String × List FileInfo) :=
  (size_groups.flatMap (fun p => p.2)).foldl
    (groupStep (fun f => ph f.path) (fun f _ => f)) []

/-- `candidates`: fingerprint groups with more than one member. -/
def candidates (ph : String → Option String)
    (size_groups : List (Int × List FileInfo)) :
    List (String × List FileInfo) :=
  (partial_groups ph size_groups).filter (fun p => p.2.length > 1)

/-- `candidate_files`: the flattening of `candidates`; exactly the files
submitted for full hashing. -/
def candidate_files (ph : String → Option String)
    (size_groups : List (Int × List FileInfo)) : List FileInfo :=
  (candidates ph size_groups).flatMap (fun p => p.2)

/-- The full-hash grouping pass over `candidate_files` (oracle `fh`):
on success the record's `hash` field is set and the record joins that
hash's group; failures are dropped. -/
def hash_groups (ph fh : String → Option String)
    (size_groups : List (Int × List FileInfo)) :
    List (String × List FileInfo) :=
  (candidate_files ph size_groups).foldl
    (groupStep (fun f => fh f.path) (fun f h => { f with hash := some h })) []

/-- `DuplicateCleaner.find_duplicates_by_hash`: the full-hash groups
with more than one member. -/
def find_duplicates_by_hash (ph fh : String → Option String)
    (size_groups : List (Int × List FileInfo)) :
    List (String × List FileInfo) :=
  (hash_groups ph fh size_groups).filter (fun p => p.2.length > 1)

/-- Oracles for the effects `process_duplicates` performs: folder-score
computation (directory listing), `os.remove` (`none` = success,
`some msg` = the caught exception's text), and the quarantine move. -/
structure Oracles where
  fsScore : String → Int
  removeErr : String → Option String
  mvOk : String → String → Bool

/-- The mutable run state threaded through `process_duplicates`: the
quarantine manager, the filesystem mutations performed so far, and the
reporter's action list. -/
structure DispatchState where
  qm : QuarantineManager.QM
  fsOps : List FsOp
  actions : List DuplicateAction
deriving Repr, DecidableEq

/-- `DuplicateCleaner._build_reason`. -/
def build_reason (keeper removed : FileInfo) : String :=
  let reasons : List String :=
    (if DecisionEngine.scoreD keeper > DecisionEngine.scoreD removed then
      ["better folder score (" ++ toString (DecisionEngine.scoreD keeper)
        ++ " vs " ++ toString (DecisionEngine.scoreD removed) ++ ")"]
     else [])
    ++ (if DecisionEngine.get_earliest_time keeper <
          DecisionEngine.get_earliest_time removed then ["older file"] else [])
    ++ (if keeper.path.length < removed.path.length then ["shorter path"] else [])
  if reasons = [] then "default choice" else String.intercalate "; " reasons

/-- What happens to one non-keeper file: the branch on
`apply`/`mode`/`confirm` of `process_duplicates`, returning the
disposition string, the optional error, the mutations performed, and the
updated quarantine manager.  `action_type` starts as `'dry-run'` and is
only changed on the branches that set it. -/
def dispatch_action (args : RunArgs) (o : Oracles) (qm : QuarantineManager.QM)
    (path : String) : String × Option String × List FsOp × QuarantineManager.QM :=
  if args.apply then
    if args.mode == "delete" then
      if args.confirm then
        match o.removeErr path with
        | none => ("delete", none, [FsOp.delete path], qm)
        | some e => ("dry-run", some e, [], qm)
      else ("dry-run", some "Confirm flag not set", [], qm)
    else if args.mode == "quarantine" then
      match QuarantineManager.move_to_quarantine o.mvOk qm path with
      | (true, qm2, ops) => ("move", none, ops, qm2)
      | (false, qm2, ops) => ("dry-run", some "Move failed", ops, qm2)
    else if args.mode == "report" then ("report-only", none, [], qm)
    else ("dry-run", none, [], qm)
  else ("dry-run", none, [], qm)

/-- The body of the inner loop of `process_duplicates` for one file of a
group: the keeper itself is skipped; otherwise the action is dispatched
and exactly one `DuplicateAction` is appended to the reporter. -/
def process_one (args : RunArgs) (o : Oracles) (file_hash : String)
    (keeper : FileInfo) (st : DispatchState) (file_info : FileInfo) :
    DispatchState :=
  if file_info.path == keeper.path then st
  else
    let reason := build_reason keeper file_info
    let r := dispatch_action args o st.qm file_info.path
    let action : DuplicateAction :=
      { hash := file_hash
        size := file_info.size
        kept_path := keeper.path
        removed_path := file_info.path
        reason := reason
        kept_ctime := keeper.ctime
        kept_mtime := keeper.mtime
        removed_ctime := file_info.ctime
        removed_mtime := file_info.mtime
        action := r.1
        error := r.2.1 }
    { qm := r.2.2.2, fsOps := st.fsOps ++ r.2.2.1, actions := st.actions ++ [action] }

/-- One iteration of the outer loop of `process_duplicates`:
`choose_file_to_keep` fills the folder scores of the group's files in
place (modelled by `map fillScore`, a no-op in the single-file case the
code short-circuits) and returns the keeper, then every file of the
group is processed.  An empty group (impossible upstream: every group
has more than one member) is a no-op here, where Python would raise. -/
def process_group (args : RunArgs) (o : Oracles) (st : DispatchState)
    (g : String × List FileInfo) : DispatchState :=
  let files := if g.2.length = 1 then g.2
    else g.2.map (DecisionEngine.fillScore o.fsScore)
  match DecisionEngine.choose_file_to_keep o.fsScore g.2 with
  | none => st
  | some keeper => files.foldl (process_one args o g.1 keeper) st

/-- `DuplicateCleaner.process_duplicates` over all duplicate groups,
starting from a fresh reporter, no mutations, and an empty move log. -/
def process_duplicates (args : RunArgs) (o : Oracles)
    (qdir : QuarantineManager.WinPath)
    (hgroups : List (String × List FileInfo)) : DispatchState :=
  hgroups.foldl (process_group args o) ⟨⟨qdir, []⟩, [], []⟩

/-- Spec-side: the number of non-keeper files of a group, i.e. the
number of `DuplicateAction`s the dispatcher owes for it. -/
def nonKeeperCount (o : Oracles) (g : String × List FileInfo) : Nat :=
  let files := if g.2.length = 1 then g.2
    else g.2.map (DecisionEngine.fillScore o.fsScore)
  match DecisionEngine.choose_file_to_keep o.fsScore g.2 with
  | none => 0
  | some keeper => (files.filter (fun f => ¬ f.path = keeper.path)).length

end DuplicateCleaner

namespace DecisionEngine

theorem keyLe_refl (a : Int × Int × Nat) : keyLe a a := Or.inr rfl

theorem keyLt_trans {a b c : Int × Int × Nat} (h1 : keyLt a b) (h2 : keyLt b c) :
    keyLt a c := by
  obtain ⟨a1, a2, a3⟩ := a
  obtain ⟨b1, b2, b3⟩ := b
  obtain ⟨c1, c2, c3⟩ := c
  simp only [keyLt] at *
  omega

theorem keyLe_trans {a b c : Int × Int × Nat} (h1 : keyLe a b) (h2 : keyLe b c) :
    keyLe a c := by
  rcases h1 with h1 | rfl
  · rcases h2 with h2 | rfl
    · exact Or.inl (keyLt_trans h1 h2)
    · exact Or.inl h1
  · exact h2

theorem keyLe_total (a b : Int × Int × Nat) : keyLe a b ∨ keyLe b a := by
  obtain ⟨a1, a2, a3⟩ := a
  obtain ⟨b1, b2, b3⟩ := b
  simp only [keyLe, keyLt, Prod.mk.injEq]
  omega

theorem keyLt_of_not_keyLe {a b : Int × Int × Nat} (h : ¬ keyLe a b) : keyLt b a := by
  obtain ⟨a1, a2, a3⟩ := a
  obtain ⟨b1, b2, b3⟩ := b
  simp only [keyLe, keyLt, Prod.mk.injEq] at *
  omega

theorem keyLt_irrefl (a : Int × Int × Nat) : ¬ keyLt a a := by
  obtain ⟨a1, a2, a3⟩ := a
  simp only [keyLt]
  omega

theorem not_keyLt_of_keyLe {a b : Int × Int × Nat} (h : keyLe a b) : ¬ keyLt b a := by
  intro hlt
  rcases h with h | rfl
  · exact keyLt_irrefl a (keyLt_trans h hlt)
  · exact keyLt_irrefl a hlt

theorem fileLe_trans (a b c : FileInfo) (h1 : fileLe a b) (h2 : fileLe b c) :
    fileLe a c := by
  simp only [fileLe, decide_eq_true_eq] at *
  exact keyLe_trans h1 h2

theorem fileLe_total (a b : FileInfo) : fileLe a b || fileLe b a := by
  simp only [fileLe, Bool.or_eq_true, decide_eq_true_eq]
  exact keyLe_total _ _

/-- The head of the stable sort is a minimum of the list under `keyLe`. -/
theorem head_mergeSort_min (l : List FileInfo) (hne : l ≠ []) :
    ∃ k, (l.mergeSort fileLe).head? = some k ∧ k ∈ l ∧
      ∀ x ∈ l, keyLe (sortKey k) (sortKey x) := by
  have hperm := List.mergeSort_perm l fileLe
  have hsorted := List.sorted_mergeSort fileLe_trans fileLe_total l
  cases hms : l.mergeSort fileLe with
  | nil =>
    exact absurd (hms ▸ hperm : List.Perm [] l).nil_eq.symm hne
  | cons k t =>
    refine ⟨k, rfl, ?_, ?_⟩
    · exact hperm.mem_iff.mp (hms ▸ List.mem_cons_self k t)
    · intro x hx
      have hxms : x ∈ l.mergeSort fileLe := hperm.symm.mem_iff.mp hx
      rw [hms] at hxms
      rcases List.mem_cons.mp hxms with rfl | hxt
      · exact keyLe_refl _
      · have := (List.pairwise_cons.mp (hms ▸ hsorted)).1 x hxt
        simpa [fileLe, decide_eq_true_eq] using this

/-- If `b` is strictly below every other element of `l` in key order,
the head of the stable sort is `b`. -/
theorem head_mergeSort_eq_of_strict (l : List FileInfo) (b : FileInfo)
    (hb : b ∈ l) (hstrict : ∀ a ∈ l, a ≠ b → keyLt (sortKey b) (sortKey a)) :
    (l.mergeSort fileLe).head? = some b := by
  obtain ⟨k, hk, hkmem, hkmin⟩ := head_mergeSort_min l (List.ne_nil_of_mem hb)
  by_cases hkb : k = b
  · exact hkb ▸ hk
  · exact absurd (hkmin b hb) (fun hle =>
      not_keyLt_of_keyLe hle (hstrict k hkmem hkb))

theorem map_fillScore_eq_self {fsScore : String → Int} {files : List FileInfo}
    (hs : ∀ f ∈ files, f.folder_score.isSome) :
    files.map (fillScore fsScore) = files := by
  induction files with
  | nil => rfl
  | cons f fs ih =>
    have hf := hs f (List.mem_cons_self f fs)
    have : fillScore fsScore f = f := by
      unfold fillScore
      cases hfs : f.folder_score with
      | none => rw [hfs] at hf; simp at hf
      | some s => rfl
    simp only [List.map_cons, this, List.cons.injEq, true_and]
    exact ih (fun g hg => hs g (List.mem_cons_of_mem f hg))

end DecisionEngine

open DecisionEngine in
/-- C1: for every list of two or more `FileInfo`s with defined folder
scores, `choose_file_to_keep` returns a file that is minimal under the
lexicographic order on `(negated folder score, min(ctime, mtime), path
length)`; a file whose folder score strictly exceeds every other file's
is chosen regardless of timestamps and path lengths; among equal scores
the file with strictly earlier `min(ctime, mtime)` is chosen, and then
the one with the strictly shorter path. -/
theorem C1_keeper_lexicographic_minimum (fsScore : String → Int)
    (files : List FileInfo) (h2 : 2 ≤ files.length)
    (hs : ∀ f ∈ files, f.folder_score.isSome) :
    (∃ k, choose_file_to_keep fsScore files = some k ∧ k ∈ files ∧
        ∀ f ∈ files, keyLe (sortKey k) (sortKey f))
    ∧ (∀ b ∈ files,
        (∀ a ∈ files, a ≠ b → scoreD a < scoreD b) →
        choose_file_to_keep fsScore files = some b)
    ∧ (∀ b ∈ files,
        (∀ a ∈ files, a ≠ b → scoreD a = scoreD b ∧
          get_earliest_time b < get_earliest_time a) →
        choose_file_to_keep fsScore files = some b)
    ∧ (∀ b ∈ files,
        (∀ a ∈ files, a ≠ b → scoreD a = scoreD b ∧
          get_earliest_time a = get_earliest_time b ∧
          b.path.length < a.path.length) →
        choose_file_to_keep fsScore files = some b) := by
  have hlen : ¬ files.length = 1 := by omega
  have hne : files ≠ [] := by
    intro h; rw [h] at h2; simp at h2
  have hchoose : choose_file_to_keep fsScore files =
      (files.mergeSort fileLe).head? := by
    unfold choose_file_to_keep
    rw [if_neg hlen, map_fillScore_eq_self hs]
  refine ⟨?_, ?_, ?_, ?_⟩
  · obtain ⟨k, hk, hkmem, hkmin⟩ := head_mergeSort_min files hne
    exact ⟨k, hchoose ▸ hk, hkmem, hkmin⟩
  · intro b hb hdom
    rw [hchoose]
    refine head_mergeSort_eq_of_strict files b hb (fun a ha hab => ?_)
    have := hdom a ha hab
    simp only [sortKey, keyLt]
    omega
  · intro b hb hdom
    rw [hchoose]
    refine head_mergeSort_eq_of_strict files b hb (fun a ha hab => ?_)
    obtain ⟨h1, h2'⟩ := hdom a ha hab
    simp only [sortKey, keyLt]
    omega
  · intro b hb hdom
    rw [hchoose]
    refine head_mergeSort_eq_of_strict files b hb (fun a ha hab => ?_)
    obtain ⟨h1, h2', h3⟩ := hdom a ha hab
    simp only [sortKey, keyLt]
    omega

open DecisionEngine in
/-- Witness for C1 at a concrete input: with a strictly higher folder
score, the first file is chosen even though the other is older and has a
shorter path. -/
theorem C1_keeper_lexicographic_minimum_witness :
    choose_file_to_keep (fun _ => 0)
      [⟨"dir1/a.txt", 5, 10, 10, none, some 50⟩,
       ⟨"b.txt", 5, 0, 0, none, some 3⟩] =
      some ⟨"dir1/a.txt", 5, 10, 10, none, some 50⟩ :=
  (C1_keeper_lexicographic_minimum (fun _ => 0)
      [⟨"dir1/a.txt", 5, 10, 10, none, some 50⟩,
       ⟨"b.txt", 5, 0, 0, none, some 3⟩]
      (by decide) (by decide)).2.1
    ⟨"dir1/a.txt", 5, 10, 10, none, some 50⟩ (by decide) (by decide)

open DecisionEngine in
/-- C9: when every file in the input has the same folder score, the same
`min(ctime, mtime)` and the same path length, the keeper is the first
file of the input list: the sort is stable, so a full tie preserves
input order. -/
theorem C9_full_tie_keeps_first_file (fsScore : String → Int)
    (files : List FileInfo) (hne : files ≠ [])
    (hs : ∀ f ∈ files, f.folder_score.isSome)
    (heq : ∀ a ∈ files, ∀ b ∈ files, scoreD a = scoreD b ∧
      get_earliest_time a = get_earliest_time b ∧
      a.path.length = b.path.length) :
    choose_file_to_keep fsScore files = files.head? := by
  by_cases hlen : files.length = 1
  · unfold choose_file_to_keep
    rw [if_pos hlen]
  · unfold choose_file_to_keep
    rw [if_neg hlen, map_fillScore_eq_self hs]
    have hpair : files.Pairwise (fun a b => fileLe a b = true) := by
      refine List.pairwise_of_forall_mem_list (fun a ha b hb => ?_)
      obtain ⟨h1, h2, h3⟩ := heq a ha b hb
      simp only [fileLe, decide_eq_true_eq, keyLe, keyLt, sortKey,
        Prod.mk.injEq]
      omega
    rw [List.mergeSort_of_sorted hpair]

open DecisionEngine in
/-- Witness for C9 at a concrete input: two fully tied files; the first
one in input order is kept. -/
theorem C9_full_tie_keeps_first_file_witness :
    choose_file_to_keep (fun _ => 0)
      [⟨"a", 5, 3, 7, none, some 1⟩, ⟨"b", 5, 7, 3, none, some 1⟩] =
      some ⟨"a", 5, 3, 7, none, some 1⟩ :=
  C9_full_tie_keeps_first_file (fun _ => 0)
    [⟨"a", 5, 3, 7, none, some 1⟩, ⟨"b", 5, 7, 3, none, some 1⟩]
    (by decide) (by decide) (by decide)

namespace Scanner

theorem addToGroup_forall {κ α : Type} [DecidableEq κ] {Q : κ → α → Prop}
    {g : List (κ × List α)} (hg : ∀ p ∈ g, ∀ x ∈ p.2, Q p.1 x)
    {k : κ} {v : α} (hv : Q k v) :
    ∀ p ∈ addToGroup g k v, ∀ x ∈ p.2, Q p.1 x := by
  induction g with
  | nil =>
    intro p hp x hx
    simp only [addToGroup, List.mem_singleton] at hp
    subst hp
    simp only [List.mem_singleton] at hx
    subst hx
    exact hv
  | cons hd tl ih =>
    obtain ⟨k0, vs⟩ := hd
    intro p hp x hx
    simp only [addToGroup] at hp
    by_cases hk : k0 = k
    · rw [if_pos hk] at hp
      rcases List.mem_cons.mp hp with rfl | hpt
      · rcases List.mem_append.mp hx with hxv | hxv
        · exact hg (k0, vs) (List.mem_cons_self _ _) x hxv
        · simp only [List.mem_singleton] at hxv
          subst hxv; subst hk
          exact hv
      · exact hg p (List.mem_cons_of_mem _ hpt) x hx
    · rw [if_neg hk] at hp
      rcases List.mem_cons.mp hp with rfl | hpt
      · exact hg (k0, vs) (List.mem_cons_self _ _) x hx
      · exact ih (fun q hq => hg q (List.mem_cons_of_mem _ hq)) p hpt x hx

theorem foldl_addToGroup_forall {κ α : Type} [DecidableEq κ] {Q : κ → α → Prop}
    (key : α → κ) :
    ∀ (items : List α) (g : List (κ × List α)),
      (∀ p ∈ g, ∀ x ∈ p.2, Q p.1 x) →
      (∀ v ∈ items, Q (key v) v) →
      ∀ p ∈ items.foldl (fun g v => addToGroup g (key v) v) g,
        ∀ x ∈ p.2, Q p.1 x := by
  intro items
  induction items with
  | nil => intro g hg _ p hp; exact hg p hp
  | cons v vs ih =>
    intro g hg hitems p hp
    exact ih (addToGroup g (key v) v)
      (addToGroup_forall hg (hitems v (List.mem_cons_self _ _)))
      (fun w hw => hitems w (List.mem_cons_of_mem _ hw)) p hp

theorem should_skip_none (cfg : Config) (gm : String → String → Bool)
    (s suf : String) :
    should_skip_path cfg gm ⟨s, none, suf⟩ = true := rfl

theorem should_skip_some (cfg : Config) (gm : String → String → Bool)
    (s : String) (r : List String) (suf : String) :
    should_skip_path cfg gm ⟨s, some r, suf⟩ = true ↔
      (∃ ex ∈ cfg.exclude_paths, ex = r ∨ (ex <+: r ∧ ex.length < r.length)) ∨
      (∃ pat ∈ cfg.exclude_globs, gm s.toLower pat.toLower = true) ∨
      suf.toLower ∈ cfg.skip_exts := by
  simp only [should_skip_path, inParents]
  split_ifs with h1 h2 h3
  · refine iff_of_true rfl (Or.inl ?_)
    rw [List.any_eq_true] at h1
    obtain ⟨ex, hmem, hex⟩ := h1
    refine ⟨ex, hmem, ?_⟩
    simpa only [Bool.or_eq_true, beq_iff_eq, Bool.and_eq_true,
      decide_eq_true_eq, List.isPrefixOf_iff_prefix] using hex
  · refine iff_of_true rfl (Or.inr (Or.inl ?_))
    rw [List.any_eq_true] at h2
    obtain ⟨pat, hmem, hpat⟩ := h2
    exact ⟨pat, hmem, hpat⟩
  · refine iff_of_true rfl (Or.inr (Or.inr ?_))
    simp only [List.contains_eq_any_beq, List.any_eq_true, beq_iff_eq] at h3
    obtain ⟨x, hxmem, hxeq⟩ := h3
    exact hxeq ▸ hxmem
  · refine iff_of_false (by simp) ?_
    intro hrhs
    rcases hrhs with ⟨ex, hmem, hex⟩ | ⟨pat, hmem, hpat⟩ | hsuf
    · apply h1
      rw [List.any_eq_true]
      refine ⟨ex, hmem, ?_⟩
      simpa only [Bool.or_eq_true, beq_iff_eq, Bool.and_eq_true,
        decide_eq_true_eq, List.isPrefixOf_iff_prefix] using hex
    · apply h2
      rw [List.any_eq_true]
      exact ⟨pat, hmem, hpat⟩
    · apply h3
      simp only [List.contains_eq_any_beq, List.any_eq_true, beq_iff_eq]
      exact ⟨suf.toLower, hsuf, rfl⟩

end Scanner

/-- C8: `should_skip_path` returns `true` whenever resolving the path
fails, and otherwise returns `true` exactly when the resolved path
equals or lies underneath an excluded directory, or the lowercased path
matches an exclusion glob, or the lowercased extension is skipped.  As a
total `Bool`-valued function it raises nothing to its caller. -/
theorem C8_should_skip_path_spec (cfg : Scanner.Config)
    (gm : String → String → Bool) (p : Scanner.SPath) :
    (p.resolved = none → Scanner.should_skip_path cfg gm p = true) ∧
    (∀ r, p.resolved = some r →
      (Scanner.should_skip_path cfg gm p = true ↔
        (∃ ex ∈ cfg.exclude_paths, ex = r ∨ (ex <+: r ∧ ex.length < r.length)) ∨
        (∃ pat ∈ cfg.exclude_globs, gm p.str.toLower pat.toLower = true) ∨
        p.suffix.toLower ∈ cfg.skip_exts)) := by
  obtain ⟨s, res, suf⟩ := p
  cases res with
  | none =>
    refine ⟨fun _ => rfl, fun r hr => ?_⟩
    exact absurd hr (by simp)
  | some r0 =>
    refine ⟨fun h => absurd h (by simp), fun r hr => ?_⟩
    have hr0 : r0 = r := by simpa using hr
    subst hr0
    exact Scanner.should_skip_some cfg gm s r0 suf

/-- Witness for C8 at a concrete input: a path equal to an excluded
directory is skipped. -/
theorem C8_should_skip_path_spec_witness :
    Scanner.should_skip_path ⟨[["d", "x", "f"]], [], [], 0, 100⟩
      (fun _ _ => false) ⟨"d\\x\\f", some ["d", "x", "f"], ""⟩ = true :=
  ((C8_should_skip_path_spec ⟨[["d", "x", "f"]], [], [], 0, 100⟩
      (fun _ _ => false) ⟨"d\\x\\f", some ["d", "x", "f"], ""⟩).2
    ["d", "x", "f"] rfl).mpr
    (Or.inl ⟨["d", "x", "f"], by decide, Or.inl rfl⟩)

namespace Scanner

theorem not_skip_consequences (cfg : Config) (gm : String → String → Bool)
    (s : String) (res : Option (List String)) (suf : String)
    (h : should_skip_path cfg gm ⟨s, res, suf⟩ = false) :
    (∃ r, res = some r ∧
      ∀ ex ∈ cfg.exclude_paths, ¬ ex = r ∧ ¬ (ex <+: r ∧ ex.length < r.length)) ∧
    (∀ pat ∈ cfg.exclude_globs, gm s.toLower pat.toLower = false) ∧
    suf.toLower ∉ cfg.skip_exts := by
  cases res with
  | none => exact absurd (should_skip_none cfg gm s suf ▸ h) (by simp)
  | some r =>
    have hiff := should_skip_some cfg gm s r suf
    have hnd : ¬ ((∃ ex ∈ cfg.exclude_paths, ex = r ∨ (ex <+: r ∧ ex.length < r.length)) ∨
        (∃ pat ∈ cfg.exclude_globs, gm s.toLower pat.toLower = true) ∨
        suf.toLower ∈ cfg.skip_exts) := by
      intro hd
      rw [hiff.mpr hd] at h
      exact absurd h (by simp)
    push_neg at hnd
    obtain ⟨h1, h2, h3⟩ := hnd
    refine ⟨⟨r, rfl, fun ex hex => ?_⟩, fun pat hpat => ?_, h3⟩
    · have hh := h1 ex hex
      push_neg at hh
      exact ⟨hh.1, fun hc => absurd hc.2 (not_lt.mpr (hh.2 hc.1))⟩
    · have hh := h2 pat hpat
      simpa using hh

theorem processFile_spec (cfg : Config) (po : PathOracle) (cur name : String)
    (stat : Option (Int × Int × Int)) (f : FileInfo)
    (hf : processFile cfg po cur name stat = some f) :
    cfg.min_size ≤ f.size ∧ f.size ≤ cfg.max_size ∧
    should_skip_path cfg po.globMatch (toSPath po f.path) = false := by
  unfold processFile at hf
  by_cases hskip : should_skip_path cfg po.globMatch
      (toSPath po (pathJoin cur name)) = true
  · rw [if_pos hskip] at hf
    exact Option.noConfusion hf
  · rw [if_neg hskip] at hf
    cases stat with
    | none => exact Option.noConfusion hf
    | some t =>
      obtain ⟨size, ct, mt⟩ := t
      dsimp only at hf
      by_cases hsz : size < cfg.min_size ∨ size > cfg.max_size
      · rw [if_pos hsz] at hf
        exact Option.noConfusion hf
      · rw [if_neg hsz] at hf
        rw [Option.some.injEq] at hf
        subst hf
        push_neg at hsz
        simp only [Bool.not_eq_true] at hskip
        exact ⟨hsz.1, hsz.2, hskip⟩

mutual

theorem mem_walkEntry (cfg : Config) (po : PathOracle) :
    ∀ (cur : String) (e : FsEntry) (f : FileInfo),
      f ∈ walkEntry cfg po cur e →
      cfg.min_size ≤ f.size ∧ f.size ≤ cfg.max_size ∧
      should_skip_path cfg po.globMatch (toSPath po f.path) = false
  | cur, .file name stat, f, hf => by
    rw [walkEntry, Option.mem_toList, Option.mem_def] at hf
    exact processFile_spec cfg po cur name stat f hf
  | cur, .dir name children, f, hf => by
    rw [walkEntry] at hf
    split at hf
    · exact absurd hf (by simp)
    · exact mem_walkList cfg po (pathJoin cur name) children f hf

theorem mem_walkList (cfg : Config) (po : PathOracle) :
    ∀ (cur : String) (es : List FsEntry) (f : FileInfo),
      f ∈ walkList cfg po cur es →
      cfg.min_size ≤ f.size ∧ f.size ≤ cfg.max_size ∧
      should_skip_path cfg po.globMatch (toSPath po f.path) = false
  | cur, [], f, hf => by rw [walkList] at hf; exact absurd hf (by simp)
  | cur, e :: es, f, hf => by
    rw [walkList, List.mem_append] at hf
    rcases hf with hf | hf
    · exact mem_walkEntry cfg po cur e f hf
    · exact mem_walkList cfg po cur es f hf

end

end Scanner

/-- C5: every bucket the scanner returns has at least two members; every
member's size equals the bucket key and lies in `[min_size, max_size]`
inclusive; no member is skipped — in particular none is an excluded path
or under one, none matches an exclusion glob, and none has a skipped
extension. -/
theorem C5_scan_bucket_invariants (cfg : Scanner.Config)
    (po : Scanner.PathOracle) (root : String)
    (entries : List Scanner.FsEntry) :
    ∀ p ∈ Scanner.scan cfg po root entries, Scanner.scanBucketOK cfg po p := by
  intro p hp
  simp only [Scanner.scan, List.mem_filter, decide_eq_true_eq] at hp
  obtain ⟨hpg, hplen⟩ := hp
  refine ⟨by omega, ?_⟩
  have hitems : ∀ f ∈ Scanner.walkList cfg po root entries,
      cfg.min_size ≤ f.size ∧ f.size ≤ cfg.max_size ∧
      Scanner.should_skip_path cfg po.globMatch (Scanner.toSPath po f.path) = false :=
    fun f hf => Scanner.mem_walkList cfg po root entries f hf
  have hfold := Scanner.foldl_addToGroup_forall
    (Q := fun s f => f.size = s ∧ cfg.min_size ≤ f.size ∧ f.size ≤ cfg.max_size ∧
      Scanner.should_skip_path cfg po.globMatch (Scanner.toSPath po f.path) = false)
    (fun f => f.size)
    (Scanner.walkList cfg po root entries) []
    (by simp)
    (fun v hv => ⟨rfl, hitems v hv⟩)
    p hpg
  intro f hfp
  obtain ⟨hsize, hmin, hmax, hskip⟩ := hfold f hfp
  have hcons := Scanner.not_skip_consequences cfg po.globMatch f.path
    (po.resolved f.path) (po.suffix f.path) hskip
  exact ⟨hsize, hmin, hmax, hskip, hcons.1, hcons.2.1, hcons.2.2⟩

/-- Witness for C5 at a concrete input: two 5-byte files survive into
the single returned bucket, a 6-byte singleton is dropped. -/
theorem C5_scan_bucket_invariants_witness :
    Scanner.scanBucketOK ⟨[], [], [], 0, 100⟩
      ⟨fun s => some [s], fun _ => "", fun _ _ => false⟩
      (5, [⟨"R\\a", 5, 1, 2, none, none⟩, ⟨"R\\b", 5, 3, 4, none, none⟩]) :=
  C5_scan_bucket_invariants ⟨[], [], [], 0, 100⟩
    ⟨fun s => some [s], fun _ => "", fun _ _ => false⟩ "R"
    [.file "a" (some (5, 1, 2)), .file "b" (some (5, 3, 4)),
     .file "c" (some (6, 0, 0))]
    (5, [⟨"R\\a", 5, 1, 2, none, none⟩, ⟨"R\\b", 5, 3, 4, none, none⟩])
    (by decide)

namespace DuplicateCleaner

theorem foldl_groupStep_forall (sel : FileInfo → Option String)
    (upd : FileInfo → String → FileInfo) {Q : String → FileInfo → Prop} :
    ∀ (items : List FileInfo) (g : List (String × List FileInfo)),
      (∀ p ∈ g, ∀ x ∈ p.2, Q p.1 x) →
      (∀ f ∈ items, ∀ h, sel f = some h → Q h (upd f h)) →
      ∀ p ∈ items.foldl (groupStep sel upd) g, ∀ x ∈ p.2, Q p.1 x := by
  intro items
  induction items with
  | nil => intro g hg _ p hp; exact hg p hp
  | cons v vs ih =>
    intro g hg hitems p hp
    have hstep : ∀ q ∈ groupStep sel upd g v, ∀ x ∈ q.2, Q q.1 x := by
      unfold groupStep
      cases hsel : sel v with
      | none => exact hg
      | some h =>
        exact Scanner.addToGroup_forall hg
          (hitems v (List.mem_cons_self _ _) h hsel)
    exact ih _ hstep (fun w hw => hitems w (List.mem_cons_of_mem _ hw)) p hp

theorem mem_candidate_files (ph : String → Option String)
    (size_groups : List (Int × List FileInfo)) :
    ∀ f ∈ candidate_files ph size_groups,
      ∃ p ∈ partial_groups ph size_groups,
        f ∈ p.2 ∧ 2 ≤ p.2.length ∧ ph f.path = some p.1 := by
  intro f hf
  unfold candidate_files candidates at hf
  rw [List.mem_flatMap] at hf
  obtain ⟨p, hp, hfp⟩ := hf
  rw [List.mem_filter, decide_eq_true_eq] at hp
  have hph := foldl_groupStep_forall (fun f => ph f.path) (fun f _ => f)
    (Q := fun h f => ph f.path = some h)
    (size_groups.flatMap (fun p => p.2)) []
    (by simp) (fun f _ h hh => hh) p hp.1 f hfp
  exact ⟨p, hp.1, hfp, by omega, hph⟩

end DuplicateCleaner

/-- C4: the full hash is computed only for files whose partial
fingerprint succeeded and lies in a fingerprint group of size at least
two; every group of the returned `HashBucket` has at least two members;
and every member of a returned group passed both hash computations (and
carries the full hash in its `hash` field). -/
theorem C4_two_tier_hash_pipeline (ph fh : String → Option String)
    (size_groups : List (Int × List FileInfo)) :
    (∀ f ∈ DuplicateCleaner.candidate_files ph size_groups,
      ∃ p ∈ DuplicateCleaner.partial_groups ph size_groups,
        f ∈ p.2 ∧ 2 ≤ p.2.length ∧ ph f.path = some p.1) ∧
    (∀ p ∈ DuplicateCleaner.find_duplicates_by_hash ph fh size_groups,
      2 ≤ p.2.length ∧
      ∀ f ∈ p.2, fh f.path = some p.1 ∧ f.hash = some p.1 ∧
        ∃ hp, ph f.path = some hp) := by
  refine ⟨DuplicateCleaner.mem_candidate_files ph size_groups, ?_⟩
  intro p hp
  unfold DuplicateCleaner.find_duplicates_by_hash at hp
  rw [List.mem_filter, decide_eq_true_eq] at hp
  refine ⟨by omega, ?_⟩
  have hfull := DuplicateCleaner.foldl_groupStep_forall
    (fun f => fh f.path) (fun f h => { f with hash := some h })
    (Q := fun h f => fh f.path = some h ∧ f.hash = some h ∧
      ∃ hp, ph f.path = some hp)
    (DuplicateCleaner.candidate_files ph size_groups) []
    (by simp)
    (fun f hf h hh => by
      obtain ⟨q, _, _, _, hq⟩ :=
        DuplicateCleaner.mem_candidate_files ph size_groups f hf
      exact ⟨hh, rfl, q.1, hq⟩)
    p hp.1
  intro f hfp
  exact hfull f hfp

/-- Witness for C4 at a concrete input: both files of the single size
bucket become full-hash candidates with a shared fingerprint group. -/
theorem C4_two_tier_hash_pipeline_witness :
    ∃ p ∈ DuplicateCleaner.partial_groups (fun _ => some "p")
        [(5, [⟨"x", 5, 0, 0, none, none⟩, ⟨"y", 5, 0, 0, none, none⟩])],
      (⟨"x", 5, 0, 0, none, none⟩ : FileInfo) ∈ p.2 ∧ 2 ≤ p.2.length ∧
      (fun _ => some "p") (FileInfo.path ⟨"x", 5, 0, 0, none, none⟩) = some p.1 :=
  (C4_two_tier_hash_pipeline (fun _ => some "p") (fun _ => some "h")
      [(5, [⟨"x", 5, 0, 0, none, none⟩, ⟨"y", 5, 0, 0, none, none⟩])]).1
    ⟨"x", 5, 0, 0, none, none⟩ (by decide)

/-- C6: when the file can be read, `compute_partial_hash` returns the
hex digest of exactly the chunks `fedChunks` describes, in order —
always the starting chunk, the middle chunk exactly when the size
exceeds twice the chunk size, the end chunk exactly when it exceeds
three times the chunk size. -/
theorem C6_partial_hash_chunks (hexDigest : List Nat → String)
    (readFile : String → Option (List Nat)) (filepath : String)
    (content : List Nat) (hread : readFile filepath = some content) :
    Hasher.compute_partial_hash hexDigest readFile filepath =
      some (hexDigest (Hasher.fedChunks content).flatten) := by
  unfold Hasher.compute_partial_hash Hasher.fedChunks
  rw [hread]
  by_cases h2 : 2 * Hasher.CHUNK_SIZE < content.length <;>
    by_cases h3 : 3 * Hasher.CHUNK_SIZE < content.length <;>
      simp [h2, h3, Hasher.fileRead, Hasher.startChunk, Hasher.middleChunk,
        Hasher.endChunk]

/-- Witness for C6 at a concrete input: a three-byte file feeds only its
starting chunk. -/
theorem C6_partial_hash_chunks_witness :
    Hasher.compute_partial_hash (fun l => toString l)
      (fun _ => some [1, 2, 3]) "f" =
      some ((fun l => toString l) (Hasher.fedChunks [1, 2, 3]).flatten) :=
  C6_partial_hash_chunks (fun l => toString l) (fun _ => some [1, 2, 3])
    "f" [1, 2, 3] rfl

namespace DuplicateCleaner

theorem foldl_preserve {α β : Type} {P : α → Prop} (f : α → β → α) :
    ∀ (l : List β) (a : α), P a → (∀ x b, P x → P (f x b)) → P (l.foldl f a)
  | [], a, ha, _ => ha
  | b :: l, a, ha, hstep => foldl_preserve f l (f a b) (hstep a b ha) hstep

theorem dispatch_action_apply_false (args : RunArgs) (o : Oracles)
    (qm : QuarantineManager.QM) (path : String) (h : args.apply = false) :
    dispatch_action args o qm path = ("dry-run", none, [], qm) := by
  unfold dispatch_action
  rw [h]
  simp

theorem process_one_dry (args : RunArgs) (o : Oracles) (file_hash : String)
    (keeper : FileInfo) (h : args.apply = false) (st : DispatchState)
    (fi : FileInfo)
    (hP : st.fsOps = [] ∧ st.qm.moves = [] ∧
      ∀ a ∈ st.actions, a.action = "dry-run") :
    (process_one args o file_hash keeper st fi).fsOps = [] ∧
    (process_one args o file_hash keeper st fi).qm.moves = [] ∧
    ∀ a ∈ (process_one args o file_hash keeper st fi).actions,
      a.action = "dry-run" := by
  unfold process_one
  by_cases hpq : (fi.path == keeper.path) = true
  · rw [if_pos hpq]; exact hP
  · rw [if_neg hpq]
    rw [dispatch_action_apply_false args o st.qm fi.path h]
    refine ⟨by simp [hP.1], hP.2.1, ?_⟩
    intro a ha
    simp only [List.mem_append, List.mem_singleton] at ha
    rcases ha with ha | rfl
    · exact hP.2.2 a ha
    · rfl

end DuplicateCleaner

/-- C2: whenever the `apply` flag is false, `process_duplicates`
performs no filesystem mutation — no delete, no move, an empty move
log — and every `DuplicateAction` it produces has disposition
`dry-run`, in every mode. -/
theorem C2_dry_run_never_mutates (args : RunArgs)
    (o : DuplicateCleaner.Oracles) (qdir : QuarantineManager.WinPath)
    (hgroups : List (String × List FileInfo)) (h : args.apply = false) :
    (DuplicateCleaner.process_duplicates args o qdir hgroups).fsOps = [] ∧
    (DuplicateCleaner.process_duplicates args o qdir hgroups).qm.moves = [] ∧
    ∀ a ∈ (DuplicateCleaner.process_duplicates args o qdir hgroups).actions,
      a.action = "dry-run" := by
  unfold DuplicateCleaner.process_duplicates
  apply DuplicateCleaner.foldl_preserve
    (P := fun st : DuplicateCleaner.DispatchState => st.fsOps = [] ∧
      st.qm.moves = [] ∧ ∀ a ∈ st.actions, a.action = "dry-run")
  · exact ⟨rfl, rfl, by simp⟩
  intro st g hP
  unfold DuplicateCleaner.process_group
  cases DecisionEngine.choose_file_to_keep o.fsScore g.2 with
  | none => exact hP
  | some keeper =>
    exact DuplicateCleaner.foldl_preserve _ _ st hP
      (fun x b hx => DuplicateCleaner.process_one_dry args o g.1 keeper h x b hx)

/-- Witness for C2 at a concrete input: delete mode without `apply` on
one two-file group mutates nothing and reports only dry-runs. -/
theorem C2_dry_run_never_mutates_witness :
    (DuplicateCleaner.process_duplicates ⟨"delete", false, true⟩
      ⟨fun _ => 0, fun _ => none, fun _ _ => true⟩ ⟨['D', ':'], true, [['q']]⟩
      [("h", [⟨"a", 1, 0, 0, some "h", some 1⟩,
              ⟨"b", 1, 0, 0, some "h", some 1⟩])]).fsOps = [] ∧
    (DuplicateCleaner.process_duplicates ⟨"delete", false, true⟩
      ⟨fun _ => 0, fun _ => none, fun _ _ => true⟩ ⟨['D', ':'], true, [['q']]⟩
      [("h", [⟨"a", 1, 0, 0, some "h", some 1⟩,
              ⟨"b", 1, 0, 0, some "h", some 1⟩])]).qm.moves = [] ∧
    ∀ a ∈ (DuplicateCleaner.process_duplicates ⟨"delete", false, true⟩
      ⟨fun _ => 0, fun _ => none, fun _ _ => true⟩ ⟨['D', ':'], true, [['q']]⟩
      [("h", [⟨"a", 1, 0, 0, some "h", some 1⟩,
              ⟨"b", 1, 0, 0, some "h", some 1⟩])]).actions,
      a.action = "dry-run" :=
  C2_dry_run_never_mutates ⟨"delete", false, true⟩
    ⟨fun _ => 0, fun _ => none, fun _ _ => true⟩ ⟨['D', ':'], true, [['q']]⟩
    [("h", [⟨"a", 1, 0, 0, some "h", some 1⟩,
            ⟨"b", 1, 0, 0, some "h", some 1⟩])] rfl

namespace DuplicateCleaner

theorem dispatch_action_no_confirm (args : RunArgs) (o : Oracles)
    (qm : QuarantineManager.QM) (path : String) (hm : args.mode = "delete")
    (ha : args.apply = true) (hc : args.confirm = false) :
    dispatch_action args o qm path =
      ("dry-run", some "Confirm flag not set", [], qm) := by
  unfold dispatch_action
  rw [ha, hm, hc]
  simp

theorem process_one_no_confirm (args : RunArgs) (o : Oracles)
    (file_hash : String) (keeper : FileInfo) (hm : args.mode = "delete")
    (ha : args.apply = true) (hc : args.confirm = false)
    (st : DispatchState) (fi : FileInfo)
    (hP : st.fsOps = [] ∧ ∀ a ∈ st.actions,
      a.error = some "Confirm flag not set" ∧ a.action = "dry-run") :
    (process_one args o file_hash keeper st fi).fsOps = [] ∧
    ∀ a ∈ (process_one args o file_hash keeper st fi).actions,
      a.error = some "Confirm flag not set" ∧ a.action = "dry-run" := by
  unfold process_one
  by_cases hpq : (fi.path == keeper.path) = true
  · rw [if_pos hpq]; exact hP
  · rw [if_neg hpq]
    rw [dispatch_action_no_confirm args o st.qm fi.path hm ha hc]
    refine ⟨by simp [hP.1], ?_⟩
    intro a ha2
    simp only [List.mem_append, List.mem_singleton] at ha2
    rcases ha2 with ha2 | rfl
    · exact hP.2 a ha2
    · exact ⟨rfl, rfl⟩

theorem process_one_actions_length (args : RunArgs) (o : Oracles)
    (file_hash : String) (keeper : FileInfo) (st : DispatchState)
    (fi : FileInfo) :
    (process_one args o file_hash keeper st fi).actions.length =
      st.actions.length + (if fi.path = keeper.path then 0 else 1) := by
  unfold process_one
  by_cases hpq : fi.path = keeper.path
  · rw [if_pos (beq_iff_eq.mpr hpq), if_pos hpq]
    omega
  · rw [if_neg (fun hb => hpq (beq_iff_eq.mp hb)), if_neg hpq]
    simp

theorem foldl_process_one_actions_length (args : RunArgs) (o : Oracles)
    (file_hash : String) (keeper : FileInfo) :
    ∀ (files : List FileInfo) (st : DispatchState),
      (files.foldl (process_one args o file_hash keeper) st).actions.length =
        st.actions.length +
          (files.filter (fun f => ¬ f.path = keeper.path)).length
  | [], st => by simp
  | fi :: fs, st => by
    rw [List.foldl_cons,
      foldl_process_one_actions_length args o file_hash keeper fs _,
      process_one_actions_length]
    by_cases hpq : fi.path = keeper.path
    · simp [List.filter_cons, hpq]
    · simp only [List.filter_cons, hpq]
      simp
      omega

theorem process_group_actions_length (args : RunArgs) (o : Oracles)
    (st : DispatchState) (g : String × List FileInfo) :
    (process_group args o st g).actions.length =
      st.actions.length + nonKeeperCount o g := by
  unfold process_group nonKeeperCount
  cases hk : DecisionEngine.choose_file_to_keep o.fsScore g.2 with
  | none => simp
  | some keeper =>
    exact foldl_process_one_actions_length args o g.1 keeper _ st

theorem foldl_process_group_actions_length (args : RunArgs) (o : Oracles) :
    ∀ (gs : List (String × List FileInfo)) (st : DispatchState),
      (gs.foldl (process_group args o) st).actions.length =
        st.actions.length + (gs.map (nonKeeperCount o)).sum
  | [], st => by simp
  | g :: gs, st => by
    rw [List.foldl_cons, foldl_process_group_actions_length args o gs _,
      process_group_actions_length]
    simp
    omega

end DuplicateCleaner

/-- C3: in delete mode with `apply = true` and `confirm = false`, the
dispatcher performs zero filesystem mutations and produces one
`DuplicateAction` per non-keeper file of every group, each recording the
confirmation-required error (and the disposition stays `dry-run`). -/
theorem C3_delete_without_confirm_mutates_nothing (args : RunArgs)
    (o : DuplicateCleaner.Oracles) (qdir : QuarantineManager.WinPath)
    (hgroups : List (String × List FileInfo)) (hm : args.mode = "delete")
    (ha : args.apply = true) (hc : args.confirm = false) :
    (DuplicateCleaner.process_duplicates args o qdir hgroups).fsOps = [] ∧
    (∀ a ∈ (DuplicateCleaner.process_duplicates args o qdir hgroups).actions,
      a.error = some "Confirm flag not set" ∧ a.action = "dry-run") ∧
    (DuplicateCleaner.process_duplicates args o qdir hgroups).actions.length =
      (hgroups.map (DuplicateCleaner.nonKeeperCount o)).sum := by
  have hmain : (DuplicateCleaner.process_duplicates args o qdir hgroups).fsOps = [] ∧
      ∀ a ∈ (DuplicateCleaner.process_duplicates args o qdir hgroups).actions,
        a.error = some "Confirm flag not set" ∧ a.action = "dry-run" := by
    unfold DuplicateCleaner.process_duplicates
    apply DuplicateCleaner.foldl_preserve
      (P := fun st : DuplicateCleaner.DispatchState => st.fsOps = [] ∧
        ∀ a ∈ st.actions,
          a.error = some "Confirm flag not set" ∧ a.action = "dry-run")
    · exact ⟨rfl, by simp⟩
    intro st g hP
    unfold DuplicateCleaner.process_group
    cases DecisionEngine.choose_file_to_keep o.fsScore g.2 with
    | none => exact hP
    | some keeper =>
      exact DuplicateCleaner.foldl_preserve _ _ st hP
        (fun x b hx =>
          DuplicateCleaner.process_one_no_confirm args o g.1 keeper hm ha hc x b hx)
  refine ⟨hmain.1, hmain.2, ?_⟩
  have := DuplicateCleaner.foldl_process_group_actions_length args o hgroups
    ⟨⟨qdir, []⟩, [], []⟩
  simpa [DuplicateCleaner.process_duplicates] using this

/-- Witness for C3 at a concrete input. -/
theorem C3_delete_without_confirm_mutates_nothing_witness :
    (DuplicateCleaner.process_duplicates ⟨"delete", true, false⟩
      ⟨fun _ => 0, fun _ => none, fun _ _ => true⟩ ⟨['D', ':'], true, [['q']]⟩
      [("h", [⟨"a", 1, 0, 0, some "h", some 1⟩,
              ⟨"b", 1, 0, 0, some "h", some 1⟩])]).fsOps = [] ∧
    (∀ a ∈ (DuplicateCleaner.process_duplicates ⟨"delete", true, false⟩
      ⟨fun _ => 0, fun _ => none, fun _ _ => true⟩ ⟨['D', ':'], true, [['q']]⟩
      [("h", [⟨"a", 1, 0, 0, some "h", some 1⟩,
              ⟨"b", 1, 0, 0, some "h", some 1⟩])]).actions,
      a.error = some "Confirm flag not set" ∧ a.action = "dry-run") ∧
    (DuplicateCleaner.process_duplicates ⟨"delete", true, false⟩
      ⟨fun _ => 0, fun _ => none, fun _ _ => true⟩ ⟨['D', ':'], true, [['q']]⟩
      [("h", [⟨"a", 1, 0, 0, some "h", some 1⟩,
              ⟨"b", 1, 0, 0, some "h", some 1⟩])]).actions.length =
      ([("h", [⟨"a", 1, 0, 0, some "h", some 1⟩,
               ⟨"b", 1, 0, 0, some "h", some 1⟩])].map
        (DuplicateCleaner.nonKeeperCount
          ⟨fun _ => 0, fun _ => none, fun _ _ => true⟩)).sum :=
  C3_delete_without_confirm_mutates_nothing ⟨"delete", true, false⟩
    ⟨fun _ => 0, fun _ => none, fun _ _ => true⟩ ⟨['D', ':'], true, [['q']]⟩
    [("h", [⟨"a", 1, 0, 0, some "h", some 1⟩,
            ⟨"b", 1, 0, 0, some "h", some 1⟩])] rfl rfl rfl

namespace DuplicateCleaner

theorem dispatch_action_quarantine_fail (args : RunArgs) (o : Oracles)
    (qm : QuarantineManager.QM) (path : String)
    (hm : args.mode = "quarantine") (ha : args.apply = true)
    (hmv : o.mvOk path (String.mk (QuarantineManager.strRepr
      (QuarantineManager.get_quarantine_path qm.quarantine_dir path.data))) =
      false) :
    dispatch_action args o qm path = ("dry-run", some "Move failed", [], qm) := by
  unfold dispatch_action QuarantineManager.move_to_quarantine
  rw [ha, hm]
  simp [hmv]

end DuplicateCleaner

/-- C7: `move_to_quarantine` appends `(original, destination)` to the
ordered move log exactly when the relocation succeeded; on failure
nothing is appended and no file is moved, and the dispatcher then
records a `Move failed` error on that file's record with disposition
`dry-run` (not `move`), performing no mutation and leaving the move log
untouched. -/
theorem C7_quarantine_move_log (mvOk : String → String → Bool)
    (qm : QuarantineManager.QM) (filepath dest : String)
    (hdest : dest = String.mk (QuarantineManager.strRepr
      (QuarantineManager.get_quarantine_path qm.quarantine_dir filepath.data))) :
    ((QuarantineManager.move_to_quarantine mvOk qm filepath).1 = true ↔
      mvOk filepath dest = true) ∧
    (mvOk filepath dest = true →
      (QuarantineManager.move_to_quarantine mvOk qm filepath).2.1.moves =
        qm.moves ++ [(filepath, dest)]) ∧
    (mvOk filepath dest = false →
      (QuarantineManager.move_to_quarantine mvOk qm filepath).2.1.moves =
        qm.moves ∧
      (QuarantineManager.move_to_quarantine mvOk qm filepath).2.2 = []) ∧
    (∀ (args : RunArgs) (o : DuplicateCleaner.Oracles) (file_hash : String)
      (keeper : FileInfo) (st : DuplicateCleaner.DispatchState) (fi : FileInfo),
      args.mode = "quarantine" → args.apply = true → fi.path ≠ keeper.path →
      o.mvOk fi.path (String.mk (QuarantineManager.strRepr
        (QuarantineManager.get_quarantine_path st.qm.quarantine_dir
          fi.path.data))) = false →
      (DuplicateCleaner.process_one args o file_hash keeper st fi).fsOps =
        st.fsOps ∧
      (DuplicateCleaner.process_one args o file_hash keeper st fi).qm = st.qm ∧
      ∃ r, (DuplicateCleaner.process_one args o file_hash keeper st fi).actions =
          st.actions ++ [r] ∧
        r.error = some "Move failed" ∧ r.action = "dry-run") := by
  subst hdest
  refine ⟨?_, ?_, ?_, ?_⟩
  · unfold QuarantineManager.move_to_quarantine
    by_cases hmv : mvOk filepath (String.mk (QuarantineManager.strRepr
        (QuarantineManager.get_quarantine_path qm.quarantine_dir filepath.data))) = true
    · simp [hmv]
    · simp [hmv]
  · intro hmv
    unfold QuarantineManager.move_to_quarantine
    simp [hmv]
  · intro hmv
    unfold QuarantineManager.move_to_quarantine
    simp [hmv]
  · intro args o file_hash keeper st fi hm ha hne hmv
    unfold DuplicateCleaner.process_one
    rw [if_neg (fun hb => hne (beq_iff_eq.mp hb))]
    rw [DuplicateCleaner.dispatch_action_quarantine_fail args o st.qm fi.path
      hm ha hmv]
    exact ⟨by simp, rfl, _, rfl, rfl, rfl⟩

/-- Witness for C7 at a concrete input: a failing move appends nothing
and moves nothing. -/
theorem C7_quarantine_move_log_witness :
    (QuarantineManager.move_to_quarantine (fun _ _ => false)
      ⟨⟨['D', ':'], true, [['q']]⟩, []⟩ "D:\\a").2.1.moves = [] ∧
    (QuarantineManager.move_to_quarantine (fun _ _ => false)
      ⟨⟨['D', ':'], true, [['q']]⟩, []⟩ "D:\\a").2.2 = [] :=
  (C7_quarantine_move_log (fun _ _ => false)
      ⟨⟨['D', ':'], true, [['q']]⟩, []⟩ "D:\\a"
      (String.mk (QuarantineManager.strRepr
        (QuarantineManager.get_quarantine_path ⟨['D', ':'], true, [['q']]⟩
          "D:\\a".data))) rfl).2.2.1 rfl


namespace QuarantineManager

theorem splitSep_ne_nil : ∀ (cs : List Char), splitSep cs ≠ []
  | [] => by simp [splitSep]
  | c :: rest => by
    unfold splitSep
    cases h : splitSep rest with
    | nil => simp
    | cons g gs => by_cases hc : c = '\\' <;> simp [hc]

theorem splitSep_cons_eq (c : Char) (rest g : List Char)
    (gs : List (List Char)) (h : splitSep rest = g :: gs) :
    splitSep (c :: rest) = if c = '\\' then [] :: g :: gs else (c :: g) :: gs := by
  unfold splitSep
  rw [h]

theorem splitSep_no_sep : ∀ (cs : List Char), ∀ g ∈ splitSep cs, '\\' ∉ g
  | [], g, hg => by
    simp only [splitSep, List.mem_singleton] at hg
    subst hg; simp
  | c :: rest, g, hg => by
    cases h : splitSep rest with
    | nil => exact absurd h (splitSep_ne_nil rest)
    | cons g0 gs =>
      rw [splitSep_cons_eq c rest g0 gs h] at hg
      by_cases hc : c = '\\'
      · rw [if_pos hc] at hg
        rcases List.mem_cons.mp hg with rfl | hg2
        · simp
        · exact splitSep_no_sep rest g (h ▸ hg2)
      · rw [if_neg hc] at hg
        rcases List.mem_cons.mp hg with rfl | hg2
        · intro hmem
          rcases List.mem_cons.mp hmem with rfl | hmem2
          · exact hc rfl
          · exact splitSep_no_sep rest g0 (h ▸ List.mem_cons_self g0 gs) hmem2
        · exact splitSep_no_sep rest g (h ▸ List.mem_cons_of_mem g0 hg2)

theorem splitSep_append_left :
    ∀ (a b : List Char) (g : List Char) (gs : List (List Char)),
      '\\' ∉ a → splitSep b = g :: gs → splitSep (a ++ b) = (a ++ g) :: gs
  | [], b, g, gs, _, hb => by simpa using hb
  | c :: a, b, g, gs, ha, hb => by
    have hc : ¬ c = '\\' := fun h => ha (h ▸ List.mem_cons_self c a)
    have ha2 : '\\' ∉ a := fun h => ha (List.mem_cons_of_mem c h)
    rw [List.cons_append,
      splitSep_cons_eq c (a ++ b) (a ++ g) gs
        (splitSep_append_left a b g gs ha2 hb),
      if_neg hc]
    simp

theorem splitSep_cons_sep (x : List Char) :
    splitSep ('\\' :: x) = [] :: splitSep x := by
  cases h : splitSep x with
  | nil => exact absurd h (splitSep_ne_nil x)
  | cons g gs => rw [splitSep_cons_eq '\\' x g gs h, if_pos rfl]

end QuarantineManager

namespace QuarantineManager

theorem ne_sep_of_isAlpha (c : Char) (h : c.isAlpha = true) : c ≠ '\\' := by
  intro hc
  subst hc
  revert h
  decide

theorem isDrive_eq_false_of_no_colon (cs : List Char) (h : ':' ∉ cs) :
    isDrive cs = false := by
  cases cs with
  | nil => rfl
  | cons c0 t =>
    cases t with
    | nil => rfl
    | cons c1 t2 =>
      have hc1 : c1 ≠ ':' := fun hc =>
        h (hc ▸ List.mem_cons_of_mem c0 (List.mem_cons_self c1 t2))
      simp [isDrive, hc1]

theorem parseWin_drive (cs : List Char) :
    (parseWin cs).drive = [] ∨
      ∃ c, (parseWin cs).drive = [c, ':'] ∧ c.isAlpha = true := by
  unfold parseWin
  by_cases h : isDrive cs = true
  · cases cs with
    | nil => simp [isDrive] at h
    | cons c0 t =>
      cases t with
      | nil => simp [isDrive] at h
      | cons c1 t2 =>
        simp only [isDrive, Bool.and_eq_true, beq_iff_eq] at h
        obtain ⟨ha, hc1⟩ := h
        subst hc1
        refine Or.inr ⟨c0, ?_, ha⟩
        by_cases hr : t2.head? = some '\\' <;> simp [isDrive, ha, hr]
  · by_cases hr : cs.head? = some '\\' <;> simp [h, hr]

theorem parseWin_parts (cs : List Char) :
    ∀ g ∈ (parseWin cs).parts, g ≠ [] ∧ g ≠ ['.'] ∧ '\\' ∉ g := by
  intro g hg
  unfold parseWin at hg
  by_cases hr : (if isDrive cs then cs.drop 2 else cs).head? = some '\\' <;>
    [rw [if_pos hr] at hg; rw [if_neg hr] at hg] <;>
    (simp only [List.mem_filter, decide_eq_true_eq] at hg;
     exact ⟨hg.2.1, hg.2.2, splitSep_no_sep _ g hg.1⟩)

theorem parseWin_drive_sep (d : List Char)
    (hd : d = [] ∨ ∃ c, d = [c, ':'] ∧ c.isAlpha = true) :
    parseWin (d ++ ['\\']) = ⟨d, true, []⟩ := by
  rcases hd with rfl | ⟨c, rfl, hc⟩
  · simp [parseWin, isDrive, splitSep]
  · simp [parseWin, isDrive, splitSep, hc]

theorem relative_to_root_self (o : WinPath) (ho : o.root = true) :
    relative_to o ⟨o.drive, true, []⟩ = some ⟨[], false, o.parts⟩ := by
  unfold relative_to
  rw [if_pos ⟨rfl, ho, by simp [List.isPrefixOf]⟩]
  simp

theorem relative_to_root_fail (o : WinPath) (ho : o.root = false) :
    relative_to o ⟨o.drive, true, []⟩ = none := by
  unfold relative_to
  rw [if_neg (fun h => by rw [ho] at h; exact Bool.false_ne_true h.2.1)]

end QuarantineManager

namespace QuarantineManager

theorem replaceColon_append (a b : List Char) :
    replaceColon (a ++ b) = replaceColon a ++ replaceColon b := by
  simp [replaceColon]

theorem replaceColon_cons (c : Char) (x : List Char) :
    replaceColon (c :: x) =
      (if c = ':' then "_drive".data else [c]) ++ replaceColon x := by
  simp [replaceColon]

theorem colon_not_mem_replaceColon (xs : List Char) :
    ':' ∉ replaceColon xs := by
  intro h
  simp only [replaceColon, List.mem_flatMap] at h
  obtain ⟨c, hc, hmem⟩ := h
  by_cases hc2 : c = ':'
  · rw [if_pos hc2] at hmem
    revert hmem
    decide
  · rw [if_neg hc2] at hmem
    simp only [List.mem_singleton] at hmem
    exact hc2 hmem.symm

theorem sep_not_mem_replaceColon (xs : List Char) (hx : '\\' ∉ xs) :
    '\\' ∉ replaceColon xs := by
  intro h
  simp only [replaceColon, List.mem_flatMap] at h
  obtain ⟨c, hc, hmem⟩ := h
  by_cases hc2 : c = ':'
  · rw [if_pos hc2] at hmem
    revert hmem
    decide
  · rw [if_neg hc2] at hmem
    simp only [List.mem_singleton] at hmem
    exact hx (hmem ▸ hc)

theorem replaceColon_ne_nil (xs : List Char) (hx : xs ≠ []) :
    replaceColon xs ≠ [] := by
  cases xs with
  | nil => exact absurd rfl hx
  | cons c t =>
    rw [replaceColon_cons]
    by_cases hc : c = ':' <;> simp [hc]

theorem length_le_replaceColon :
    ∀ (xs : List Char), xs.length ≤ (replaceColon xs).length
  | [] => by simp [replaceColon]
  | c :: t => by
    rw [replaceColon_cons]
    have ih := length_le_replaceColon t
    by_cases hc : c = ':' <;> simp [hc] <;> omega

theorem replaceColon_sep_cons (x : List Char) :
    replaceColon ('\\' :: x) = '\\' :: replaceColon x := by
  rw [replaceColon_cons]
  simp

theorem splitSep_of_no_sep (a : List Char) (ha : '\\' ∉ a) :
    splitSep a = [a] := by
  have h := splitSep_append_left a [] [] [] ha (by simp [splitSep])
  simpa using h

theorem interSep_cons_cons (p q : List Char) (ps : List (List Char)) :
    interSep (p :: q :: ps) = p ++ '\\' :: interSep (q :: ps) := rfl

end QuarantineManager

namespace QuarantineManager

theorem parseWin_replace_fallback (o : WinPath)
    (hdr : o.drive = [] ∨ ∃ c, o.drive = [c, ':'] ∧ c ≠ '\\')
    (hparts : ∀ g ∈ o.parts, g ≠ [] ∧ g ≠ ['.'] ∧ '\\' ∉ g)
    (hne : o.parts ≠ []) (hroot : o.root = false) :
    (parseWin (replaceColon (strRepr o))).drive = [] ∧
    (parseWin (replaceColon (strRepr o))).root = false ∧
    (parseWin (replaceColon (strRepr o))).parts ≠ [] := by
  obtain ⟨p1, ps, hps⟩ : ∃ p1 ps, o.parts = p1 :: ps := by
    cases h : o.parts with
    | nil => exact absurd h hne
    | cons a b => exact ⟨a, b, rfl⟩
  have hp1 := hparts p1 (by rw [hps]; exact List.mem_cons_self _ _)
  have hstr : strRepr o = o.drive ++ interSep o.parts := by
    unfold strRepr
    rw [if_neg (fun h => hne h.2.2), hroot]
    simp
  have hdsep : '\\' ∉ o.drive := by
    rcases hdr with h | ⟨c, h, hc⟩
    · rw [h]; simp
    · rw [h]
      intro hm
      rcases List.mem_cons.mp hm with rfl | hm2
      · exact hc rfl
      · simp at hm2
  set A := replaceColon o.drive ++ replaceColon p1 with hA
  have hAsep : '\\' ∉ A := by
    intro hm
    rcases List.mem_append.mp hm with hm | hm
    · exact sep_not_mem_replaceColon o.drive hdsep hm
    · exact sep_not_mem_replaceColon p1 hp1.2.2 hm
  have hAne : A ≠ [] := by
    intro h
    exact replaceColon_ne_nil p1 hp1.1 (List.append_eq_nil.mp h).2
  set R := replaceColon (strRepr o) with hRdef
  have hkey : ∃ B rest2, R = A ++ B ∧ splitSep R = A :: rest2 := by
    rw [hRdef, hstr, hps]
    cases ps with
    | nil =>
      rw [show interSep [p1] = p1 from rfl, replaceColon_append]
      exact ⟨[], [], by simp, by simpa using splitSep_of_no_sep A hAsep⟩
    | cons p2 ps2 =>
      have hsx : ∃ g gs,
          splitSep (replaceColon (interSep (p2 :: ps2))) = g :: gs := by
        cases h : splitSep (replaceColon (interSep (p2 :: ps2))) with
        | nil => exact absurd h (splitSep_ne_nil _)
        | cons g gs => exact ⟨g, gs, rfl⟩
      obtain ⟨g, gs, hg⟩ := hsx
      refine ⟨'\\' :: replaceColon (interSep (p2 :: ps2)), g :: gs, ?_, ?_⟩
      · rw [interSep_cons_cons, replaceColon_append, replaceColon_append,
          replaceColon_sep_cons, List.append_assoc]
      · rw [interSep_cons_cons, replaceColon_append, replaceColon_append,
          replaceColon_sep_cons, ← List.append_assoc]
        have hsl := splitSep_append_left A
          ('\\' :: replaceColon (interSep (p2 :: ps2))) [] (g :: gs) hAsep
          (by rw [splitSep_cons_sep, hg])
        rw [List.append_nil] at hsl
        exact hsl
  have hRcolon : ':' ∉ R := colon_not_mem_replaceColon (strRepr o)
  have hHD : isDrive R = false := isDrive_eq_false_of_no_colon R hRcolon
  have hRhead : ¬ R.head? = some '\\' := by
    obtain ⟨B, rest2, hRB, _⟩ := hkey
    cases hAc : A with
    | nil => exact absurd hAc hAne
    | cons a t =>
      rw [hRB, hAc]
      intro h
      simp only [List.cons_append, List.head?_cons, Option.some.injEq] at h
      exact hAsep (hAc ▸ (h ▸ List.mem_cons_self a t))
  have hpw : parseWin R =
      ⟨[], false, (splitSep R).filter (fun p => p ≠ [] ∧ p ≠ ['.'])⟩ := by
    simp [parseWin, hHD, hRhead]
  have hAdot : A ≠ ['.'] := by
    rcases hdr with h | ⟨c, h, _⟩
    · have hA2 : A = replaceColon p1 := by
        rw [hA, h]; simp [replaceColon]
      intro hdot
      rw [hA2] at hdot
      have hlen := length_le_replaceColon p1
      rw [hdot] at hlen
      simp only [List.length_singleton] at hlen
      obtain ⟨c1, hc1⟩ : ∃ c1, p1 = [c1] := by
        cases p1 with
        | nil => exact absurd rfl hp1.1
        | cons c1 t =>
          cases t with
          | nil => exact ⟨c1, rfl⟩
          | cons c2 t2 => simp at hlen
      rw [hc1, replaceColon_cons] at hdot
      by_cases hcc : c1 = ':'
      · rw [if_pos hcc] at hdot
        revert hdot
        decide
      · rw [if_neg hcc] at hdot
        simp only [replaceColon, List.flatMap_nil, List.append_nil,
          List.cons.injEq] at hdot
        exact hp1.2.1 (by rw [hc1, hdot.1])
    · intro hdot
      have h1 : 2 ≤ (replaceColon o.drive).length := by
        rw [h]
        have h2 := length_le_replaceColon [c, ':']
        simpa using h2
      have h3 : A.length = 1 := by rw [hdot]; rfl
      rw [hA, List.length_append] at h3
      omega
  refine ⟨by rw [hpw], by rw [hpw], ?_⟩
  obtain ⟨B, rest2, _, hsp⟩ := hkey
  have hmemA : A ∈ (splitSep R).filter
      (fun p => decide (p ≠ [] ∧ p ≠ ['.'])) :=
    List.mem_filter.mpr ⟨by rw [hsp]; exact List.mem_cons_self _ _,
      by simp [hAne, hAdot]⟩
  rw [hpw]
  intro hnil
  have hnil2 : (splitSep R).filter
      (fun p => decide (p ≠ [] ∧ p ≠ ['.'])) = [] := hnil
  rw [hnil2] at hmemA
  simp at hmemA

end QuarantineManager

namespace QuarantineManager

theorem strictlyInside_append (qdir : WinPath) (t : List (List Char))
    (ht : t ≠ []) :
    strictlyInside qdir ⟨qdir.drive, qdir.root, qdir.parts ++ t⟩ := by
  refine ⟨rfl, rfl, List.isPrefixOf_iff_prefix.mpr ⟨t, rfl⟩, ?_⟩
  have := List.length_pos.mpr ht
  simp only [List.length_append]
  omega

end QuarantineManager

/-- C10 counterexample: for the input path `D:\` (the drive root), the
computed quarantine destination is the quarantine root itself, not a
path strictly inside it. -/
theorem C10_counterexample_drive_root :
    ¬ QuarantineManager.strictlyInside ⟨['D', ':'], true, [['q']]⟩
      (QuarantineManager.get_quarantine_path ⟨['D', ':'], true, [['q']]⟩
        "D:\\".data) := by decide

/-- C10 (amended): for every input path that parses to at least one
component after its anchor, the quarantine destination lies strictly
inside the quarantine root — on the relative-to branch and on the
fallback branch alike.  (For anchor-only inputs such as the drive root
`D:\` the destination is the quarantine root itself, not strictly
inside it.) -/
theorem C10_amended_inside_quarantine_root
    (qdir : QuarantineManager.WinPath) (s : List Char)
    (hparts : (QuarantineManager.parseWin s).parts ≠ []) :
    QuarantineManager.strictlyInside qdir
      (QuarantineManager.get_quarantine_path qdir s) := by
  simp only [QuarantineManager.get_quarantine_path]
  have hdr0 := QuarantineManager.parseWin_drive s
  rw [QuarantineManager.parseWin_drive_sep
    (QuarantineManager.parseWin s).drive hdr0]
  cases hroot : (QuarantineManager.parseWin s).root with
  | true =>
    rw [QuarantineManager.relative_to_root_self _ hroot]
    show QuarantineManager.strictlyInside qdir
      (QuarantineManager.joinpath qdir
        ⟨[], false, (QuarantineManager.parseWin s).parts⟩)
    unfold QuarantineManager.joinpath
    rw [if_neg (by simp), if_neg (by simp)]
    exact QuarantineManager.strictlyInside_append qdir _ hparts
  | false =>
    rw [QuarantineManager.relative_to_root_fail _ hroot]
    have hdr : (QuarantineManager.parseWin s).drive = [] ∨
        ∃ c, (QuarantineManager.parseWin s).drive = [c, ':'] ∧ c ≠ '\\' := by
      rcases hdr0 with h | ⟨c, h, ha⟩
      · exact Or.inl h
      · exact Or.inr ⟨c, h, QuarantineManager.ne_sep_of_isAlpha c ha⟩
    have hfb := QuarantineManager.parseWin_replace_fallback
      (QuarantineManager.parseWin s) hdr
      (QuarantineManager.parseWin_parts s) hparts hroot
    show QuarantineManager.strictlyInside qdir
      (QuarantineManager.joinpath qdir
        (QuarantineManager.parseWin
          (QuarantineManager.replaceColon
            (QuarantineManager.strRepr (QuarantineManager.parseWin s)))))
    unfold QuarantineManager.joinpath
    rw [if_neg (by rw [hfb.1]; simp), if_neg (by rw [hfb.2.1]; simp)]
    exact QuarantineManager.strictlyInside_append qdir _ hfb.2.2

/-- Witness for the amended C10 at a concrete input: `D:\a` is
quarantined strictly inside the quarantine root. -/
theorem C10_amended_inside_quarantine_root_witness :
    QuarantineManager.strictlyInside ⟨['D', ':'], true, [['q']]⟩
      (QuarantineManager.get_quarantine_path ⟨['D', ':'], true, [['q']]⟩
        "D:\\a".data) :=
  C10_amended_inside_quarantine_root ⟨['D', ':'], true, [['q']]⟩
    "D:\\a".data (by decide)
